import Mathlib

/-!
Verification of the `Temporal::Beats` musical-time value
(`libs/temporal/temporal/beats.h`) and of the `ARDOUR::Bundle` port-routing
abstraction (`libs/ardour/bundle.cc`).  The C++ data types and operations are
embedded as executable Lean definitions, with the `int32_t`/`uint32_t` fields
modelled as unbounded integers and naturals (reduced modulo 2^32 exactly where
the source can wrap).  The theorems establish, or refute by concrete
counterexample, the documented properties of normalization, rounding,
tolerance comparison, and bundle channel/port/signal behaviour.
-/

set_option maxRecDepth 8000

namespace Temporal

/-- Modelled from the spec: the constant `Temporal::ticks_per_beat` is defined
in `temporal/types.h`, which is not among the sources here; the spec and the
claims fix PPQN = 1920 ticks per quarter-note beat. -/
def ticks_per_beat : Int := 1920

/-- Source `Beats::PPQN` (beats.h line 40): equal to `Temporal::ticks_per_beat`. -/
def PPQN : Int := ticks_per_beat

theorem PPQN_eq : PPQN = 1920 := rfl

/-- Modelled from the spec: the rounding-direction argument of
`round_to_subdivision` is `Temporal::RoundMode` from `temporal/types.h`, which
is not among the sources here.  The spec names two round-up sub-variants, two
round-down sub-variants and round-to-nearest; the source compares `dir` with 0
and with the `RoundUpMaybe` and `RoundDownAlways` values, so the five modes
carry the integer values -2 .. 2 in `toInt`. -/
inductive RoundMode where
  | RoundDownAlways
  | RoundDownMaybe
  | RoundNearest
  | RoundUpMaybe
  | RoundUpAlways
deriving DecidableEq, Repr

/-- Integer value of a `RoundMode`, as compared against 0 by the source. -/
def RoundMode.toInt : RoundMode → Int
  | .RoundDownAlways => -2
  | .RoundDownMaybe => -1
  | .RoundNearest => 0
  | .RoundUpMaybe => 1
  | .RoundUpAlways => 2

/-- Source `Temporal::Beats` (beats.h lines 38-376): the two `int32_t` fields
`_beats` and `_ticks`, modelled as unbounded integers. -/
structure Beats where
  beats : Int
  ticks : Int
deriving DecidableEq, Repr

/-- The first loop of `Beats::normalize` (beats.h lines 47-52): while the
ticks are negative, borrow one beat and add PPQN (= 1920) to the ticks.  The
`_beats >= 0` guard is applied once by the caller, exactly as in the source. -/
def borrowLoop (b t : Int) : Int × Int :=
  if h : t < 0 then borrowLoop (b - 1) (t + 1920) else (b, t)
termination_by (-t).toNat
decreasing_by omega

/-- The carry loop of `Beats::normalize` (beats.h lines 60-63), acting on the
absolute values of the two fields: while the ticks hold at least one beat
(PPQN = 1920 ticks), carry a whole beat out of them. -/
def carryLoop (b t : Nat) : Nat × Nat :=
  if h : 1920 <= t then carryLoop (b + 1) (t - 1920) else (b, t)
termination_by t
decreasing_by omega

/-- The sign-and-carry phase of `Beats::normalize` (beats.h lines 54-67): the
sign is read off the beats component, the carry loop works on the absolute
values, and both results are given that sign. -/
def normCarry (p : Int × Int) : Beats :=
  ⟨(if p.1 < 0 then -1 else 1) * (carryLoop p.1.natAbs p.2.natAbs).1,
   (if p.1 < 0 then -1 else 1) * (carryLoop p.1.natAbs p.2.natAbs).2⟩

/-- Source `Beats::normalize` (beats.h lines 45-68): first fix negative ticks
while the beats are non-negative (the borrow loop), then carry with the sign
of the beats component preserved. -/
def Beats.normalize (v : Beats) : Beats :=
  if 0 <= v.beats then normCarry (borrowLoop v.beats v.ticks)
  else normCarry (v.beats, v.ticks)

/-- Source precise-BT constructor `Beats::Beats(int32_t, int32_t)`
(beats.h lines 71-73): store the pair, then normalize. -/
def Beats.mkBT (b t : Int) : Beats := (⟨b, t⟩ : Beats).normalize

/-- Source `Beats::ticks` (beats.h lines 90-92): create from a tick count at
the standard PPQN. -/
def Beats.ofTicks (t : Int) : Beats := Beats.mkBT 0 t

/-- Source `Beats::to_ticks` (beats.h line 363). -/
def Beats.to_ticks (v : Beats) : Int := v.beats * PPQN + v.ticks

/-- Source `Beats::operator<` for two time values (beats.h lines 256-258):
lexicographic on (beats, ticks). -/
def Beats.lt (a b : Beats) : Prop :=
  a.beats < b.beats ∨ (a.beats = b.beats ∧ a.ticks < b.ticks)

/-- Source `Beats::operator<=` for two time values (beats.h lines 260-262). -/
def Beats.le (a b : Beats) : Prop :=
  a.beats < b.beats ∨ (a.beats = b.beats ∧ a.ticks <= b.ticks)

instance (a b : Beats) : Decidable (Beats.lt a b) := by
  unfold Beats.lt
  infer_instance

instance (a b : Beats) : Decidable (Beats.le a b) := by
  unfold Beats.le
  infer_instance

theorem carryLoop_eq (b t : Nat) : carryLoop b t = (b + t / 1920, t % 1920) := by
  induction b, t using carryLoop.induct with
  | case1 b t h ih =>
    rw [carryLoop, dif_pos h, ih]
    simp only [Prod.mk.injEq]
    omega
  | case2 b t h =>
    rw [carryLoop, dif_neg h]
    simp only [Prod.mk.injEq]
    omega

theorem borrowLoop_eq (b t : Int) :
    borrowLoop b t = if t < 0 then (b + t / 1920, t % 1920) else (b, t) := by
  induction b, t using borrowLoop.induct with
  | case1 b t h ih =>
    rw [borrowLoop, dif_pos h, ih]
    by_cases h2 : t + 1920 < 0
    · rw [if_pos h2, if_pos h]
      simp only [Prod.mk.injEq]
      omega
    · rw [if_neg h2, if_pos h]
      simp only [Prod.mk.injEq]
      omega
  | case2 b t h =>
    rw [borrowLoop, dif_neg h, if_neg h]

/-- Evaluation of the constructor on a non-negative pair: no borrowing, and
the carry loop leaves a canonical quotient/remainder by 1920. -/
theorem mkBT_of_nonneg (b t : Int) (hb : 0 <= b) (ht : 0 <= t) :
    Beats.mkBT b t = ⟨b + t / 1920, t % 1920⟩ := by
  unfold Beats.mkBT Beats.normalize
  dsimp only
  rw [if_pos hb, borrowLoop_eq, if_neg (by omega)]
  unfold normCarry
  rw [carryLoop_eq]
  dsimp only
  simp only [Beats.mk.injEq]
  constructor
  · rw [if_neg (by omega)]
    omega
  · rw [if_neg (by omega)]
    omega

/-- Evaluation of the constructor on a non-positive pair with negative beats:
the borrow loop is skipped, the sign is negative, and the carry acts on the
absolute values. -/
theorem mkBT_of_neg (b t : Int) (hb : b < 0) (ht : t <= 0) :
    Beats.mkBT b t = ⟨b - (-t) / 1920, -((-t) % 1920)⟩ := by
  unfold Beats.mkBT Beats.normalize
  dsimp only
  rw [if_neg (by omega)]
  unfold normCarry
  rw [carryLoop_eq]
  dsimp only
  simp only [Beats.mk.injEq]
  constructor
  · rw [if_pos (by omega)]
    omega
  · rw [if_pos (by omega)]
    omega

/-- C1 (amended): constructing `Beats(b, t)` always yields `|ticks| < PPQN`,
and the beats and ticks fields never carry opposite signs (so the ticks sign
matches the sign of the overall value).  The reconstructed total-tick count
`beats*PPQN + ticks` equals the input total `b*PPQN + t` whenever `0 <= b` and
the input total is non-negative, or `b < 0` and `t <= 0`; for the remaining
sign combinations the sign-and-carry phase of `normalize` flips the ticks sign
and the total is not preserved. -/
theorem C1_construct_normalizes (b t : Int) :
    (Beats.mkBT b t).ticks.natAbs < 1920 ∧
    ((0 <= (Beats.mkBT b t).beats ∧ 0 <= (Beats.mkBT b t).ticks) ∨
      ((Beats.mkBT b t).beats <= 0 ∧ (Beats.mkBT b t).ticks <= 0)) ∧
    (((0 <= b ∧ 0 <= b * 1920 + t) ∨ (b < 0 ∧ t <= 0)) →
      (Beats.mkBT b t).beats * 1920 + (Beats.mkBT b t).ticks = b * 1920 + t) := by
  by_cases hb : 0 <= b
  · by_cases ht : 0 <= t
    · rw [mkBT_of_nonneg b t hb ht]
      dsimp only
      refine ⟨by omega, by omega, ?_⟩
      intro hcase
      omega
    · -- negative ticks with non-negative beats: the borrow loop runs
      unfold Beats.mkBT Beats.normalize
      dsimp only
      rw [if_pos hb, borrowLoop_eq, if_pos (by omega)]
      unfold normCarry
      rw [carryLoop_eq]
      dsimp only
      by_cases hq : b + t / 1920 < 0
      · rw [if_pos hq]
        refine ⟨by omega, by omega, ?_⟩
        intro hcase
        omega
      · rw [if_neg hq]
        refine ⟨by omega, by omega, ?_⟩
        intro hcase
        omega
  · -- negative beats: no borrowing, negative sign
    unfold Beats.mkBT Beats.normalize
    dsimp only
    rw [if_neg hb]
    unfold normCarry
    rw [carryLoop_eq]
    dsimp only
    rw [if_pos (by omega)]
    refine ⟨by omega, by omega, ?_⟩
    intro hcase
    omega

/-- C1 witness: the normalization invariants and the total-tick preservation
at the concrete input (2, -100), whose normal form is (1, 1820). -/
theorem C1_construct_normalizes_witness :
    (Beats.mkBT 2 (-100)).ticks.natAbs < 1920 ∧
    (Beats.mkBT 2 (-100)).beats * 1920 + (Beats.mkBT 2 (-100)).ticks =
      2 * 1920 + (-100) :=
  ⟨(C1_construct_normalizes 2 (-100)).1,
   (C1_construct_normalizes 2 (-100)).2.2 (by norm_num)⟩

/-- C1 counterexample: `Beats(0, -1)` normalizes to (-1, -1919), whose total
tick count -3839 differs from the input total -1; the claim that the
reconstructed total always equals `b*PPQN + t` fails on the code. -/
theorem C1_total_ticks_cex :
    Beats.mkBT 0 (-1) = ⟨-1, -1919⟩ ∧
    (Beats.mkBT 0 (-1)).beats * 1920 + (Beats.mkBT 0 (-1)).ticks ≠
      0 * 1920 + (-1) := by
  have h : Beats.mkBT 0 (-1) = ⟨-1, -1919⟩ := by
    unfold Beats.mkBT Beats.normalize
    dsimp only
    rw [if_pos (by norm_num), borrowLoop_eq, if_pos (by norm_num)]
    unfold normCarry
    rw [carryLoop_eq]
    dsimp only
    norm_num
  refine ⟨h, ?_⟩
  rw [h]
  norm_num


/-- Source `Beats::round_to_beat` (beats.h lines 120-122): step to the next
beat exactly when the ticks reach `PPQN/2`. -/
def Beats.round_to_beat (v : Beats) : Beats :=
  if PPQN / 2 <= v.ticks then Beats.mkBT (v.beats + 1) 0 else Beats.mkBT v.beats 0

/-- Expansion of `to_ticks` with the numeric value of PPQN. -/
theorem to_ticks_eq (v : Beats) : v.to_ticks = v.beats * 1920 + v.ticks := by
  unfold Beats.to_ticks
  rw [PPQN_eq]

/-- C7 (amended): on a normalized non-negative value, `round_to_beat` returns
the whole beat nearest to the value, and any whole beat at the same distance
is at most the returned one (ties at `ticks = PPQN/2` round up).  For negative
normalized values the source instead truncates the ticks toward zero, which is
not the nearest beat once `ticks <= -PPQN/2`. -/
theorem C7_round_to_beat_nearest_nonneg (v : Beats) (hb : 0 <= v.beats)
    (ht0 : 0 <= v.ticks) (ht1 : v.ticks < 1920) :
    (v.round_to_beat).ticks = 0 ∧
    ∀ w : Int,
      ((v.round_to_beat).to_ticks - v.to_ticks).natAbs <=
        (w * 1920 - v.to_ticks).natAbs ∧
      ((w * 1920 - v.to_ticks).natAbs =
          ((v.round_to_beat).to_ticks - v.to_ticks).natAbs →
        w <= (v.round_to_beat).beats) := by
  unfold Beats.round_to_beat
  rw [PPQN_eq]
  by_cases h : (1920 : Int) / 2 <= v.ticks
  · rw [if_pos h, mkBT_of_nonneg (v.beats + 1) 0 (by omega) (by norm_num)]
    rw [to_ticks_eq, to_ticks_eq]
    dsimp only
    refine ⟨by norm_num, ?_⟩
    intro w
    constructor
    · omega
    · intro hw
      omega
  · rw [if_neg h, mkBT_of_nonneg v.beats 0 hb (by norm_num)]
    rw [to_ticks_eq, to_ticks_eq]
    dsimp only
    refine ⟨by norm_num, ?_⟩
    intro w
    constructor
    · omega
    · intro hw
      omega

/-- C7 witness: at the tie point (0, 960) the result is a whole beat, and beat
1 (the rounded-up one) is reached. -/
theorem C7_round_to_beat_nearest_nonneg_witness :
    ((⟨0, 960⟩ : Beats).round_to_beat).ticks = 0 ∧
    (((1 : Int) * 1920 - (⟨0, 960⟩ : Beats).to_ticks).natAbs =
        (((⟨0, 960⟩ : Beats).round_to_beat).to_ticks -
          (⟨0, 960⟩ : Beats).to_ticks).natAbs →
      (1 : Int) <= ((⟨0, 960⟩ : Beats).round_to_beat).beats) :=
  ⟨(C7_round_to_beat_nearest_nonneg ⟨0, 960⟩ (by norm_num) (by norm_num)
      (by norm_num)).1,
   ((C7_round_to_beat_nearest_nonneg ⟨0, 960⟩ (by norm_num) (by norm_num)
      (by norm_num)).2 1).2⟩

/-- C7 counterexample: the normalized negative value (-1, -1919) (total -3839
ticks) is rounded to (-1, 0) (total -1920), yet the whole beat -2 (total
-3840) is strictly closer; `round_to_beat` is not nearest-beat rounding on
negative values. -/
theorem C7_round_to_beat_negative_cex :
    (Beats.mkBT (-1) (-1919)).round_to_beat = ⟨-1, 0⟩ ∧
    ((-2 : Int) * 1920 - (Beats.mkBT (-1) (-1919)).to_ticks).natAbs <
      ((Beats.mkBT (-1) (-1919)).round_to_beat.to_ticks -
        (Beats.mkBT (-1) (-1919)).to_ticks).natAbs := by
  have h1 : Beats.mkBT (-1) (-1919) = ⟨-1, -1919⟩ := by
    rw [mkBT_of_neg (-1) (-1919) (by norm_num) (by norm_num)]
    norm_num
  have h2 : (Beats.mkBT (-1) (-1919)).round_to_beat = ⟨-1, 0⟩ := by
    rw [h1]
    unfold Beats.round_to_beat
    rw [PPQN_eq]
    dsimp only
    rw [if_neg (by norm_num), mkBT_of_neg (-1) 0 (by norm_num) (by norm_num)]
    norm_num
  refine ⟨h2, ?_⟩
  rw [h2, h1, to_ticks_eq, to_ticks_eq]
  dsimp only
  norm_num

/-- Source `Beats::to_double` (beats.h line 362), with the C++ `double`
modelled as an exact rational number. -/
def Beats.to_double (v : Beats) : ℚ := (v.beats : ℚ) + (v.ticks : ℚ) / ((PPQN : Int) : ℚ)

/-- Source `Beats::operator==(double)` (beats.h lines 243-246): acceptable
tolerance is one tick. -/
def Beats.eq_double (v : Beats) (t : ℚ) : Prop :=
  |v.to_double - t| <= 1 / ((PPQN : Int) : ℚ)

/-- Source `Beats::operator<(double)` (beats.h lines 272-280): false inside
the one-tick tolerance, otherwise the strict comparison. -/
def Beats.lt_double (v : Beats) (t : ℚ) : Prop :=
  ¬ |v.to_double - t| <= 1 / ((PPQN : Int) : ℚ) ∧ v.to_double < t

/-- Source `Beats::operator>(double)` (beats.h lines 286-294). -/
def Beats.gt_double (v : Beats) (t : ℚ) : Prop :=
  ¬ |v.to_double - t| <= 1 / ((PPQN : Int) : ℚ) ∧ t < v.to_double

/-- C8: any number within one tick (`1/PPQN`) of a Beats value compares equal
to it and is neither strictly less nor strictly greater; concretely,
`Beats(1,0)` equals `1.0 + 0.3/PPQN` but not `1.0 + 2.0/PPQN`. -/
theorem C8_double_tolerance :
    (∀ (v : Beats) (x : ℚ), |v.to_double - x| <= 1 / ((PPQN : Int) : ℚ) →
      (v.eq_double x ∧ ¬ v.lt_double x ∧ ¬ v.gt_double x)) ∧
    Beats.eq_double ⟨1, 0⟩ (1 + (3 / 10) / 1920) ∧
    ¬ Beats.eq_double ⟨1, 0⟩ (1 + 2 / 1920) := by
  refine ⟨?_, ?_, ?_⟩
  · intro v x h
    exact ⟨h, fun hc => hc.1 h, fun hc => hc.1 h⟩
  · unfold Beats.eq_double Beats.to_double
    rw [PPQN_eq]
    dsimp only
    rw [abs_le]
    norm_num
  · unfold Beats.eq_double Beats.to_double
    rw [PPQN_eq]
    dsimp only
    rw [abs_le]
    norm_num

/-- C8 witness: the tolerance law at the concrete value (1, 0) against the
exact number 1. -/
theorem C8_double_tolerance_witness :
    Beats.eq_double ⟨1, 0⟩ 1 ∧ ¬ Beats.lt_double ⟨1, 0⟩ 1 ∧
      ¬ Beats.gt_double ⟨1, 0⟩ 1 :=
  C8_double_tolerance.1 ⟨1, 0⟩ 1 (by
    unfold Beats.to_double
    rw [PPQN_eq]
    dsimp only
    rw [abs_le]
    norm_num)

/-- Source `Beats::operator==(int)` (beats.h lines 248-250): compares only the
`_beats` field. -/
def Beats.eq_int (v : Beats) (n : Int) : Prop := v.beats = n

/-- C10: comparing a Beats value against a plain integer holds exactly when
the beats field equals that integer, with the ticks component ignored; in
particular `Beats(1, 500) == 1` even though the value is not exactly one
beat. -/
theorem C10_int_equality_ignores_ticks :
    (∀ (v : Beats) (n : Int), Beats.eq_int v n ↔ v.beats = n) ∧
    (∀ (b t1 t2 n : Int), Beats.eq_int ⟨b, t1⟩ n ↔ Beats.eq_int ⟨b, t2⟩ n) ∧
    Beats.eq_int (Beats.mkBT 1 500) 1 ∧
    (Beats.mkBT 1 500).to_ticks ≠ 1 * 1920 := by
  have h : Beats.mkBT 1 500 = ⟨1, 500⟩ := by
    rw [mkBT_of_nonneg 1 500 (by norm_num) (by norm_num)]
    norm_num
  refine ⟨fun v n => Iff.rfl, fun b t1 t2 n => Iff.rfl, ?_, ?_⟩
  · rw [h]
    exact rfl
  · rw [h, to_ticks_eq]
    norm_num

/-- Conversion of the `int64_t` result of `to_ticks` to the `uint32_t` local
of `round_to_subdivision` (beats.h line 143): reduction modulo 2^32. -/
def toU32 (t : Int) : Nat := (t % (2 ^ 32 : Int)).toNat

/-- Conversion of a `uint32_t` value to the `int32_t` argument of
`Beats::ticks` at the return of `round_to_subdivision` (beats.h line 231):
values of 2^31 or more wrap around to negatives. -/
def toI32 (n : Nat) : Int :=
  if n % 2 ^ 32 < 2 ^ 31 then ((n % 2 ^ 32 : Nat) : Int)
  else ((n % 2 ^ 32 : Nat) : Int) - 2 ^ 32

/-- Source `Beats::round_to_subdivision` (beats.h lines 142-232).  The
`uint32_t` locals are natural numbers reduced modulo 2^32 wherever the source
arithmetic can wrap; the `double` arithmetic of the round-to-nearest branch
(`fmod`, `lrint`) is exact on the integral values that occur there and is
rendered with integer operations, with `rem > cell/2.0` rendered as
`2*rem > cell`.  The `uint32_t beats` local (line 146) only influences the
`rem > ticks` branch, where it is compared against zero exactly as in the
source; the returned value is always rebuilt from the total tick count alone
(line 231). -/
def Beats.round_to_subdivision (v : Beats) (subdivision : Nat) (dir : RoundMode) : Beats :=
  let ticks : Nat := toU32 v.to_ticks
  let cell : Nat := ticks_per_beat.toNat / subdivision
  let m : Nat := ticks % cell
  if 0 < dir.toInt then
    Beats.ofTicks (toI32 (
      if m = 0 ∧ dir = .RoundUpMaybe then ticks
      else if m = 0 then (ticks + cell) % 2 ^ 32
      else (ticks + (cell - m)) % 2 ^ 32))
  else if dir.toInt < 0 then
    let difference : Nat := if m = 0 ∧ dir = .RoundDownAlways then cell else m
    Beats.ofTicks (toI32 (
      if ticks < difference then ticks_per_beat.toNat - ticks else ticks - difference))
  else
    if 2 * m > cell then
      let t1 : Nat := (ticks + (cell - m)) % 2 ^ 32
      Beats.ofTicks (toI32 (
        if ticks_per_beat.toNat < t1 then t1 - ticks_per_beat.toNat else t1))
    else if 0 < m then
      if ticks < m then
        if toU32 v.beats = 0 then v
        else Beats.ofTicks (toI32 (ticks_per_beat.toNat - m))
      else Beats.ofTicks (toI32 (ticks - m))
    else
      Beats.ofTicks (toI32 ticks)

theorem toU32_of_small (t : Int) (h0 : 0 <= t) (h1 : t < 2 ^ 32) :
    toU32 t = t.toNat := by
  unfold toU32
  rw [Int.emod_eq_of_lt h0 h1]

theorem toI32_of_small (n : Nat) (h : n < 2 ^ 31) : toI32 n = (n : Int) := by
  unfold toI32
  have h2 : n < 2 ^ 32 := by omega
  rw [Nat.mod_eq_of_lt h2, if_pos h]

/-- Building a Beats value from a small non-negative tick count yields the
canonical quotient/remainder by 1920. -/
theorem ofTicks_toI32_small (x : Nat) (h : x < 2 ^ 31) :
    Beats.ofTicks (toI32 x) = ⟨(x : Int) / 1920, (x : Int) % 1920⟩ := by
  rw [toI32_of_small x h]
  unfold Beats.ofTicks
  rw [mkBT_of_nonneg 0 (x : Int) (le_refl 0) (by omega)]
  norm_num

/-- Shared evaluation: rounding `Beats(0, 700)` to the nearest quarter-beat
cell (cell size 480 at PPQN 1920) lands on 480 ticks, the lower boundary of
the cell [480, 960) that contains 700. -/
theorem round_subdiv_700_eval :
    Beats.round_to_subdivision (Beats.mkBT 0 700) 4 .RoundNearest = ⟨0, 480⟩ := by
  have h1 : Beats.mkBT 0 700 = ⟨0, 700⟩ := by
    rw [mkBT_of_nonneg 0 700 (by norm_num) (by norm_num)]
    norm_num
  rw [h1]
  have ht : (⟨0, 700⟩ : Beats).to_ticks = 700 := by
    rw [to_ticks_eq]
    norm_num
  unfold Beats.round_to_subdivision
  rw [ht]
  have hu : toU32 700 = 700 := by
    rw [toU32_of_small 700 (by norm_num) (by norm_num)]
    rfl
  rw [hu]
  have hc : ticks_per_beat.toNat / 4 = 480 := by decide
  rw [hc]
  norm_num [RoundMode.toInt]
  rw [ofTicks_toI32_small 480 (by norm_num)]
  norm_num

/-- C2 (amended): with PPQN = 1920, `round_to_subdivision(4, nearest)` applied
to `Beats(0, 700)` returns `Beats(0, 480)`: the cell size is 480 ticks, 700
lies in the cell [480, 960) at distance 220 from 480 and 260 from 960, so
nearest-rounding moves backward to the cell boundary 480, not forward to one
whole beat. -/
theorem C2_subdivision_nearest_700 :
    Beats.round_to_subdivision (Beats.mkBT 0 700) 4 .RoundNearest =
      Beats.mkBT 0 480 := by
  rw [round_subdiv_700_eval, mkBT_of_nonneg 0 480 (by norm_num) (by norm_num)]
  norm_num

/-- C2 counterexample: the rounded value is `Beats(0, 480)`, which is not the
claimed `Beats(1, 0)`. -/
theorem C2_subdivision_nearest_700_cex :
    Beats.round_to_subdivision (Beats.mkBT 0 700) 4 .RoundNearest = ⟨0, 480⟩ ∧
    (⟨0, 480⟩ : Beats) ≠ ⟨1, 0⟩ :=
  ⟨round_subdiv_700_eval, by decide⟩

/-- Shared evaluation for the zero-floor branch: rounding the zero value down
with `RoundDownAlways` takes the `ticks < difference` branch, computes
`ticks_per_beat - 0 = 1920`, and so returns one whole beat. -/
theorem round_subdiv_zero_downalways :
    Beats.round_to_subdivision ⟨0, 0⟩ 4 .RoundDownAlways = ⟨1, 0⟩ := by
  have ht : (⟨0, 0⟩ : Beats).to_ticks = 0 := by
    rw [to_ticks_eq]
    norm_num
  unfold Beats.round_to_subdivision
  rw [ht]
  have hu : toU32 0 = 0 := by
    rw [toU32_of_small 0 (le_refl 0) (by norm_num)]
    rfl
  rw [hu]
  rw [show ticks_per_beat.toNat = 1920 from rfl]
  norm_num [RoundMode.toInt]
  rw [ofTicks_toI32_small 1920 (by norm_num)]
  norm_num

/-- C3 counterexample: `Beats(0, 0)` is non-negative and 4 is a positive
subdivision count, yet backward rounding with `RoundDownAlways` returns
`Beats(1, 0)`, a value strictly greater than the input. -/
theorem C3_backward_rounding_cex :
    Beats.round_to_subdivision ⟨0, 0⟩ 4 .RoundDownAlways = ⟨1, 0⟩ ∧
    Beats.lt ⟨0, 0⟩ (Beats.round_to_subdivision ⟨0, 0⟩ 4 .RoundDownAlways) := by
  refine ⟨round_subdiv_zero_downalways, ?_⟩
  rw [round_subdiv_zero_downalways]
  decide

/-- C3 (amended): for every normalized non-negative value (total tick count
below 2^31, so no 32-bit wrap occurs) and subdivision count `0 < n <= PPQN`
(so the cell size is non-zero), rounding with a backward direction — the two
round-down modes, or round-to-nearest in its backward case — never returns a
value below zero, and returns a value at most the input except in exactly one
case: `RoundDownAlways` applied to the zero value returns `Beats(1, 0)` (the
zero-floor branch computes `ticks_per_beat - 0`), one whole beat above the
input. -/
theorem C3_backward_rounding_bounded (v : Beats) (n : Nat) (dir : RoundMode)
    (hb : 0 <= v.beats) (ht0 : 0 <= v.ticks) (ht1 : v.ticks < 1920)
    (hT : v.to_ticks < 2 ^ 31) (hn : 0 < n) (hn2 : n <= 1920)
    (hdir : dir.toInt < 0 ∨
      (dir = .RoundNearest ∧
        2 * (v.to_ticks.toNat % (1920 / n)) <= 1920 / n)) :
    Beats.le ⟨0, 0⟩ (v.round_to_subdivision n dir) ∧
    (¬ (dir = .RoundDownAlways ∧ v.to_ticks = 0) →
      Beats.le (v.round_to_subdivision n dir) v) ∧
    ((dir = .RoundDownAlways ∧ v.to_ticks = 0) →
      v.round_to_subdivision n dir = ⟨1, 0⟩) := by
  have htv : v.to_ticks = v.beats * 1920 + v.ticks := to_ticks_eq v
  have hT0 : 0 <= v.to_ticks := by omega
  set T := v.to_ticks.toNat with hTdef
  have hTT : v.to_ticks = (T : Int) := by omega
  have hu : toU32 v.to_ticks = T := toU32_of_small _ hT0 (by omega)
  have htpb : ticks_per_beat.toNat = 1920 := rfl
  have hcell : 0 < 1920 / n := Nat.div_pos hn2 hn
  have hcell2 : 1920 / n <= 1920 := Nat.div_le_self 1920 n
  have hfin : ∀ x : Nat, x <= T →
      Beats.le ⟨0, 0⟩ (Beats.ofTicks (toI32 x)) ∧
        Beats.le (Beats.ofTicks (toI32 x)) v := by
    intro x hx
    rw [ofTicks_toI32_small x (by omega)]
    constructor
    · unfold Beats.le
      dsimp only
      omega
    · unfold Beats.le
      dsimp only
      omega
  rcases hdir with hneg | ⟨hdirN, hnear⟩
  · cases dir with
    | RoundNearest => simp [RoundMode.toInt] at hneg
    | RoundUpMaybe => simp [RoundMode.toInt] at hneg
    | RoundUpAlways => simp [RoundMode.toInt] at hneg
    | RoundDownMaybe =>
      have hr : v.round_to_subdivision n .RoundDownMaybe =
          Beats.ofTicks (toI32 (T - T % (1920 / n))) := by
        simp only [Beats.round_to_subdivision]
        rw [hu, htpb]
        norm_num [RoundMode.toInt]
        have hdneg : (if T % (1920 / n) = 0 ∧
            RoundMode.RoundDownMaybe = RoundMode.RoundDownAlways then 1920 / n
            else T % (1920 / n)) = T % (1920 / n) :=
          if_neg (fun hc => RoundMode.noConfusion hc.2)
        rw [hdneg]
        rw [if_neg (by have := Nat.mod_le T (1920 / n); omega)]
      rw [hr]
      have hx : T - T % (1920 / n) <= T := by omega
      exact ⟨(hfin _ hx).1, fun _ => (hfin _ hx).2, fun hc => absurd hc.1 (by decide)⟩
    | RoundDownAlways =>
      by_cases hm : T % (1920 / n) = 0
      · by_cases hz : T < 1920 / n
        · have hTz : T = 0 := by
            have := Nat.mod_eq_of_lt hz
            omega
          have hr2 : v.round_to_subdivision n .RoundDownAlways = ⟨1, 0⟩ := by
            simp only [Beats.round_to_subdivision]
            rw [hu, htpb]
            norm_num [RoundMode.toInt]
            rw [if_pos hm, if_pos hz, hTz]
            rw [ofTicks_toI32_small (1920 - 0) (by norm_num)]
            norm_num
          have hvz : v.to_ticks = 0 := by omega
          refine ⟨?_, ?_, fun _ => hr2⟩
          · rw [hr2]
            decide
          · intro hne
            exact absurd ⟨rfl, hvz⟩ hne
        · have hr : v.round_to_subdivision n .RoundDownAlways =
              Beats.ofTicks (toI32 (T - 1920 / n)) := by
            simp only [Beats.round_to_subdivision]
            rw [hu, htpb]
            norm_num [RoundMode.toInt]
            rw [if_pos hm, if_neg hz]
          rw [hr]
          have hx : T - 1920 / n <= T := by omega
          refine ⟨(hfin _ hx).1, fun _ => (hfin _ hx).2, ?_⟩
          rintro ⟨h1, h2⟩
          exfalso
          omega
      · have hr : v.round_to_subdivision n .RoundDownAlways =
            Beats.ofTicks (toI32 (T - T % (1920 / n))) := by
          simp only [Beats.round_to_subdivision]
          rw [hu, htpb]
          norm_num [RoundMode.toInt]
          rw [if_neg hm]
          rw [if_neg (by have := Nat.mod_le T (1920 / n); omega)]
        rw [hr]
        have hx : T - T % (1920 / n) <= T := by omega
        refine ⟨(hfin _ hx).1, fun _ => (hfin _ hx).2, ?_⟩
        rintro ⟨h1, h2⟩
        exfalso
        have hT2 : T = 0 := by omega
        exact hm (by rw [hT2]; exact Nat.zero_mod _)
  · subst hdirN
    by_cases hm0 : T % (1920 / n) = 0
    · have hr : v.round_to_subdivision n .RoundNearest =
          Beats.ofTicks (toI32 T) := by
        simp only [Beats.round_to_subdivision]
        rw [hu, htpb]
        norm_num [RoundMode.toInt]
        rw [if_neg (by omega), if_neg (by omega)]
      rw [hr]
      exact ⟨(hfin _ (le_refl T)).1, fun _ => (hfin _ (le_refl T)).2,
        fun hc => absurd hc.1 (by decide)⟩
    · have hr : v.round_to_subdivision n .RoundNearest =
          Beats.ofTicks (toI32 (T - T % (1920 / n))) := by
        simp only [Beats.round_to_subdivision]
        rw [hu, htpb]
        norm_num [RoundMode.toInt]
        rw [if_neg (by omega), if_pos (by omega),
          if_neg (by have := Nat.mod_le T (1920 / n); omega)]
      rw [hr]
      have hx : T - T % (1920 / n) <= T := by omega
      exact ⟨(hfin _ hx).1, fun _ => (hfin _ hx).2,
        fun hc => absurd hc.1 (by decide)⟩

/-- C3 witness: rounding `Beats(0, 700)` down (maybe) with subdivision 4 stays
within `[0, Beats(0, 700)]`. -/
theorem C3_backward_rounding_bounded_witness :
    Beats.le ⟨0, 0⟩ (Beats.round_to_subdivision ⟨0, 700⟩ 4 .RoundDownMaybe) ∧
    Beats.le (Beats.round_to_subdivision ⟨0, 700⟩ 4 .RoundDownMaybe) ⟨0, 700⟩ := by
  have h := C3_backward_rounding_bounded ⟨0, 700⟩ 4 .RoundDownMaybe
    (by norm_num) (by norm_num) (by norm_num)
    (by rw [to_ticks_eq]; norm_num) (by norm_num) (by norm_num)
    (Or.inl (by decide))
  exact ⟨h.1, h.2.1 (by decide)⟩

end Temporal

namespace ARDOUR

/-- Source `Bundle::Channel`: a display name and the ordered list of qualified
port identifiers (bundle.cc operates on `_channel[ch].name` and
`_channel[ch].ports`). -/
structure Channel where
  name : String
  ports : List String
deriving DecidableEq, Repr

/-- Source `ARDOUR::Bundle` restricted to the state the claims concern: the
ordered channel sequence `_channel`.  The bundle name, signal type and
direction flag play no role in any claimed behaviour of bundle.cc. -/
structure Bundle where
  channels : List Channel
deriving DecidableEq, Repr

/-- The observer notifications a bundle can emit: the `PortsChanged (ch)`,
`ConfigurationChanged` and `NameChanged` signals of bundle.cc. -/
inductive BundleSignal where
  | PortsChanged (ch : Nat)
  | ConfigurationChanged
  | NameChanged
deriving DecidableEq, Repr

/-- Source `Bundle::nchannels` (bundle.cc lines 42-47). -/
def Bundle.nchannels (b : Bundle) : Nat := b.channels.length

/-- Source `Bundle::channel_ports` (bundle.cc lines 49-56); the source asserts
`c < nchannels()` before indexing, so the default is never reached under the
contract. -/
def Bundle.channel_ports (b : Bundle) (ch : Nat) : List String :=
  (b.channels.getD ch ⟨"", []⟩).ports

/-- Replacement of the port list of channel `ch`, the common effect of the
port-mutating operations of bundle.cc. -/
def Bundle.setChannelPorts (b : Bundle) (ch : Nat) (pl : List String) : Bundle :=
  ⟨b.channels.set ch ⟨(b.channels.getD ch ⟨"", []⟩).name, pl⟩⟩

/-- Source `Bundle::add_port_to_channel` (bundle.cc lines 62-74): append the
port under the lock, then emit `PortsChanged (ch)`. -/
def Bundle.add_port_to_channel (b : Bundle) (ch : Nat) (p : String) :
    Bundle × List BundleSignal :=
  (b.setChannelPorts ch (b.channel_ports ch ++ [p]), [.PortsChanged ch])

/-- Source `Bundle::remove_port_from_channel` (bundle.cc lines 80-101): erase
the first occurrence if present and emit `PortsChanged (ch)`; otherwise leave
the bundle unchanged and emit nothing. -/
def Bundle.remove_port_from_channel (b : Bundle) (ch : Nat) (p : String) :
    Bundle × List BundleSignal :=
  if p ∈ b.channel_ports ch then
    (b.setChannelPorts ch ((b.channel_ports ch).erase p), [.PortsChanged ch])
  else (b, [])

/-- Source `Bundle::set_port` (bundle.cc lines 117-130): clear the channel's
port list, append the single port, then emit `PortsChanged (ch)`. -/
def Bundle.set_port (b : Bundle) (ch : Nat) (p : String) :
    Bundle × List BundleSignal :=
  (b.setChannelPorts ch [p], [.PortsChanged ch])

/-- Source `Bundle::add_channel` (bundle.cc lines 133-142): append an empty
channel under the lock, then emit `ConfigurationChanged`. -/
def Bundle.add_channel (b : Bundle) (nm : String) : Bundle × List BundleSignal :=
  (⟨b.channels ++ [⟨nm, []⟩]⟩, [.ConfigurationChanged])

/-- Source `Bundle::remove_channel` (bundle.cc lines 153-160): erase the
channel under the lock; the source emits no signal in this function. -/
def Bundle.remove_channel (b : Bundle) (ch : Nat) : Bundle × List BundleSignal :=
  (⟨b.channels.eraseIdx ch⟩, [])

/-- Source `Bundle::remove_channels` (bundle.cc lines 162-168): clear the
channel list under the lock; the source emits no signal in this function. -/
def Bundle.remove_channels (b : Bundle) : Bundle × List BundleSignal :=
  (⟨[]⟩, [])

/-- The pairwise `engine.connect` calls issued by `Bundle::connect`
(bundle.cc lines 248-264), in order: for each channel index, the full cross
product of this bundle's ports in that channel against the other bundle's
ports in the same channel. -/
def connectCalls (a b : Bundle) : List (String × String) :=
  (List.range a.nchannels).flatMap fun i =>
    (a.channel_ports i).flatMap fun p => (b.channel_ports i).map fun q => (p, q)

/-- The cross product of two port lists has as many pairs as the product of
the lengths. -/
theorem length_cross (pa pb : List String) :
    (pa.flatMap fun p => pb.map fun q => (p, q)).length = pa.length * pb.length := by
  induction pa with
  | nil => simp
  | cons x xs ih =>
    simp only [List.flatMap_cons, List.length_append, List.length_map, ih,
      List.length_cons]
    ring

/-- Example output-side bundle with two channels of sizes {2, 1}. -/
def exA : Bundle :=
  ⟨[⟨"out L", ["clientA:out1", "clientA:out2"]⟩, ⟨"out R", ["clientA:out3"]⟩]⟩

/-- Example input-side bundle with two channels of sizes {1, 3}. -/
def exB : Bundle :=
  ⟨[⟨"in L", ["clientB:in1"]⟩, ⟨"in R", ["clientB:in2", "clientB:in3", "clientB:in4"]⟩]⟩

/-- C4: under the stated equal-channel-count precondition, `connect` issues
exactly one `engine.connect` call per port pair within each channel index, so
the number of calls is the sum over channels of the products of the port-list
lengths; in particular channel sizes {2, 1} against {1, 3} issue exactly
`2*1 + 1*3 = 5` calls. -/
theorem C4_connect_cross_product :
    (∀ a b : Bundle, a.nchannels = b.nchannels →
      (connectCalls a b).length =
        ((List.range a.nchannels).map
          (fun i => (a.channel_ports i).length * (b.channel_ports i).length)).sum) ∧
    (connectCalls exA exB).length = 2 * 1 + 1 * 3 := by
  constructor
  · intro a b h
    unfold connectCalls
    rw [List.length_flatMap]
    simp only [Function.comp_def, length_cross]
  · rfl

/-- C4 witness: the two example bundles satisfy the precondition and the call
count equals the sum of per-channel products. -/
theorem C4_connect_cross_product_witness :
    exA.nchannels = exB.nchannels ∧
    (connectCalls exA exB).length =
      ((List.range exA.nchannels).map
        (fun i => (exA.channel_ports i).length * (exB.channel_ports i).length)).sum :=
  ⟨rfl, C4_connect_cross_product.1 exA exB rfl⟩

/-- Example bundle with a single channel, used for the channel-removal
observations. -/
def ex5 : Bundle := ⟨[⟨"mono", ["sys:playback_1"]⟩]⟩

/-- C5 (amended): `add_channel` performs its mutation and then emits
`ConfigurationChanged`; `remove_channel` and `remove_channels` perform their
mutations but emit no notification at all in this source. -/
theorem C5_channel_change_signals :
    (∀ (b : Bundle) (nm : String),
      (b.add_channel nm).2 = [BundleSignal.ConfigurationChanged] ∧
      (b.add_channel nm).1.channels = b.channels ++ [⟨nm, []⟩]) ∧
    (∀ (b : Bundle) (ch : Nat), ch < b.nchannels →
      (b.remove_channel ch).2 = [] ∧
      (b.remove_channel ch).1.nchannels = b.nchannels - 1) ∧
    (∀ b : Bundle, b.remove_channels.2 = [] ∧ b.remove_channels.1.channels = []) := by
  refine ⟨fun b nm => ⟨rfl, rfl⟩, fun b ch h => ⟨rfl, ?_⟩, fun b => ⟨rfl, rfl⟩⟩
  unfold Bundle.remove_channel Bundle.nchannels
  dsimp only
  exact List.length_eraseIdx_of_lt h

/-- C5 witness: removing the only channel of a one-channel bundle mutates the
list and emits nothing. -/
theorem C5_channel_change_signals_witness :
    (ex5.remove_channel 0).2 = [] ∧
    (ex5.remove_channel 0).1.nchannels = ex5.nchannels - 1 :=
  C5_channel_change_signals.2.1 ex5 0 (by decide)

/-- C5 counterexample: `remove_channel` (and `remove_channels`) emit no
notification, so the claim that every channel remove emits
`ConfigurationChanged` fails on the code. -/
theorem C5_remove_channel_cex :
    (ex5.remove_channel 0).2 = [] ∧
    BundleSignal.ConfigurationChanged ∉ (ex5.remove_channel 0).2 ∧
    ex5.remove_channels.2 = [] :=
  ⟨rfl, by decide, rfl⟩

/-- C6: under the valid-channel precondition, removing a present port deletes
exactly the first occurrence and emits `PortsChanged (ch)`, and removing an
absent port is a silent no-op: bundle unchanged, no signal. -/
theorem C6_remove_port_first_occurrence (b : Bundle) (ch : Nat) (p : String)
    (h : ch < b.nchannels) :
    (p ∈ b.channel_ports ch →
      ∃ l1 l2, b.channel_ports ch = l1 ++ p :: l2 ∧ p ∉ l1 ∧
        b.remove_port_from_channel ch p =
          (b.setChannelPorts ch (l1 ++ l2), [BundleSignal.PortsChanged ch])) ∧
    (p ∉ b.channel_ports ch → b.remove_port_from_channel ch p = (b, [])) := by
  constructor
  · intro hm
    obtain ⟨l1, l2, hnot, heq, herase⟩ := List.exists_erase_eq hm
    refine ⟨l1, l2, heq, hnot, ?_⟩
    unfold Bundle.remove_port_from_channel
    rw [if_pos hm, herase]
  · intro hm
    unfold Bundle.remove_port_from_channel
    rw [if_neg hm]

/-- Example bundle with one two-port channel for the port-removal witness. -/
def ex6 : Bundle := ⟨[⟨"main", ["sys:capture_1", "sys:capture_2"]⟩]⟩

/-- C6 witness: removing a port that is not attached to the channel leaves the
bundle untouched and emits nothing. -/
theorem C6_remove_port_first_occurrence_witness :
    ex6.remove_port_from_channel 0 "ghost:port" = (ex6, []) :=
  (C6_remove_port_first_occurrence ex6 0 "ghost:port" (by decide)).2 (by decide)

/-- Events in the sequential execution trace of a bundle operation: lock
acquisition and release of `_channel_mutex`, and signal emission.  A `notify`
event carries the bundle state that a synchronously invoked observer would
re-query at that moment. -/
inductive BundleEvent where
  | acquire
  | release
  | notify (s : BundleSignal) (observed : Bundle)

/-- No notify event occurs while the lock is held: scanning the trace while
tracking the current lock depth, every `notify` is encountered at depth
zero. -/
def notifiesUnlocked : Int → List BundleEvent → Prop
  | _, [] => True
  | d, .acquire :: r => notifiesUnlocked (d + 1) r
  | d, .release :: r => notifiesUnlocked (d - 1) r
  | d, .notify _ _ :: r => d = 0 ∧ notifiesUnlocked d r

/-- Every observer invoked by a notify event of the trace observes exactly the
given final bundle state. -/
def observerSeesFinal (tr : List BundleEvent) (final : Bundle) : Prop :=
  ∀ s ob, BundleEvent.notify s ob ∈ tr → ob = final

/-- Trace of `Bundle::add_port_to_channel` (bundle.cc lines 62-74): the lock
scope covers the mutation, and `PortsChanged` is emitted after the scope has
closed, with the mutated bundle visible to the observer. -/
def addPortTrace (b : Bundle) (ch : Nat) (p : String) :
    Bundle × List BundleEvent :=
  let post := b.setChannelPorts ch (b.channel_ports ch ++ [p])
  (post, [.acquire, .release, .notify (.PortsChanged ch) post])

/-- Trace of `Bundle::remove_port_from_channel` (bundle.cc lines 80-101): the
erase happens inside the lock scope, and `PortsChanged` is emitted after the
scope has closed only when something was erased. -/
def removePortTrace (b : Bundle) (ch : Nat) (p : String) :
    Bundle × List BundleEvent :=
  if p ∈ b.channel_ports ch then
    let post := b.setChannelPorts ch ((b.channel_ports ch).erase p)
    (post, [.acquire, .release, .notify (.PortsChanged ch) post])
  else (b, [.acquire, .release])

/-- Trace of `Bundle::set_port` (bundle.cc lines 117-130): clear and append
inside the lock scope, `PortsChanged` emitted after the scope has closed. -/
def setPortTrace (b : Bundle) (ch : Nat) (p : String) :
    Bundle × List BundleEvent :=
  let post := b.setChannelPorts ch [p]
  (post, [.acquire, .release, .notify (.PortsChanged ch) post])

/-- The properties of the common acquire-release-notify trace shape. -/
theorem trace_shape_props (sig : BundleSignal) (post : Bundle) :
    notifiesUnlocked 0
      [BundleEvent.acquire, BundleEvent.release, BundleEvent.notify sig post] ∧
    observerSeesFinal
      [BundleEvent.acquire, BundleEvent.release, BundleEvent.notify sig post]
      post := by
  constructor
  · norm_num [notifiesUnlocked]
  · intro s ob hmem
    rcases List.mem_cons.mp hmem with h1 | hmem2
    · exact BundleEvent.noConfusion h1
    rcases List.mem_cons.mp hmem2 with h1 | hmem3
    · exact BundleEvent.noConfusion h1
    rcases List.mem_cons.mp hmem3 with h1 | hmem4
    · injection h1 with hs hob
    · exact absurd hmem4 (List.not_mem_nil _)

/-- The properties of the notification-free acquire-release trace shape. -/
theorem trace_shape_props_silent (final : Bundle) :
    notifiesUnlocked 0 [BundleEvent.acquire, BundleEvent.release] ∧
    observerSeesFinal [BundleEvent.acquire, BundleEvent.release] final := by
  constructor
  · norm_num [notifiesUnlocked]
  · intro s ob hmem
    rcases List.mem_cons.mp hmem with h1 | hmem2
    · exact BundleEvent.noConfusion h1
    rcases List.mem_cons.mp hmem2 with h1 | hmem3
    · exact BundleEvent.noConfusion h1
    · exact absurd hmem3 (List.not_mem_nil _)

/-- C9: for each port-mutating operation (add a port, remove a port, set the
single port), the notification appears in the trace only at lock depth zero
(after the lock scope has closed), any synchronously invoked observer sees
exactly the final post-mutation bundle, and the trace's final state agrees
with the operation's result state. -/
theorem C9_notify_after_unlock (b : Bundle) (ch : Nat) (p : String)
    (h : ch < b.nchannels) :
    (notifiesUnlocked 0 (addPortTrace b ch p).2 ∧
      observerSeesFinal (addPortTrace b ch p).2 (addPortTrace b ch p).1 ∧
      (addPortTrace b ch p).1 = (b.add_port_to_channel ch p).1) ∧
    (notifiesUnlocked 0 (removePortTrace b ch p).2 ∧
      observerSeesFinal (removePortTrace b ch p).2 (removePortTrace b ch p).1 ∧
      (removePortTrace b ch p).1 = (b.remove_port_from_channel ch p).1) ∧
    (notifiesUnlocked 0 (setPortTrace b ch p).2 ∧
      observerSeesFinal (setPortTrace b ch p).2 (setPortTrace b ch p).1 ∧
      (setPortTrace b ch p).1 = (b.set_port ch p).1) := by
  refine ⟨?_, ?_, ?_⟩
  · unfold addPortTrace
    dsimp only
    exact ⟨(trace_shape_props _ _).1, (trace_shape_props _ _).2, rfl⟩
  · unfold removePortTrace Bundle.remove_port_from_channel
    by_cases hm : p ∈ b.channel_ports ch
    · rw [if_pos hm, if_pos hm]
      dsimp only
      exact ⟨(trace_shape_props _ _).1, (trace_shape_props _ _).2, rfl⟩
    · rw [if_neg hm, if_neg hm]
      dsimp only
      exact ⟨(trace_shape_props_silent b).1, (trace_shape_props_silent b).2, rfl⟩
  · unfold setPortTrace
    dsimp only
    exact ⟨(trace_shape_props _ _).1, (trace_shape_props _ _).2, rfl⟩

/-- Example bundle with a single one-port channel for the notification-order
witness. -/
def ex9 : Bundle := ⟨[⟨"mono", ["amp:in"]⟩]⟩

/-- C9 witness: on a concrete bundle, adding a port notifies only after the
lock is released and the observer sees the final state. -/
theorem C9_notify_after_unlock_witness :
    notifiesUnlocked 0 (addPortTrace ex9 0 "pre:out").2 ∧
    observerSeesFinal (addPortTrace ex9 0 "pre:out").2 (addPortTrace ex9 0 "pre:out").1 :=
  ⟨(C9_notify_after_unlock ex9 0 "pre:out" (by decide)).1.1,
   (C9_notify_after_unlock ex9 0 "pre:out" (by decide)).1.2.1⟩

end ARDOUR
